import Mathlib

/-!
A formal model of the orchestration logic of pysimm's hybrid MC/MD
application (`pysimm/apps/mc_md.py`) and of its antechamber driver
(`pysimm/amber.py`).

File basenames, the glob patterns and the leading-integer regular
expression used by the restart scanner are modelled over `List Char`.
The decimal rendering of iteration indices (Python `str(n)`) is
`encNat`, and the leading-digit match of `re.match` is `leadingNat`.
-/

/-- Decimal digit character for `d < 10`, as produced by Python `str`. -/
def digitChar : Nat → Char
  | 0 => '0'
  | 1 => '1'
  | 2 => '2'
  | 3 => '3'
  | 4 => '4'
  | 5 => '5'
  | 6 => '6'
  | 7 => '7'
  | 8 => '8'
  | _ => '9'

/-- Big-endian decimal digits of `n` (empty for `0`), with explicit fuel
so that the kernel can evaluate it; the fuel is always adequate below. -/
def encAuxF : Nat → Nat → List Char
  | _, 0 => []
  | 0, _ + 1 => []
  | fuel + 1, n + 1 => encAuxF fuel ((n + 1) / 10) ++ [digitChar ((n + 1) % 10)]

/-- Big-endian decimal digits of `n` (empty for `0`). -/
def encAux (n : Nat) : List Char := encAuxF n n

/-- Python `str (n)` for a natural number, as a character list. -/
def encNat (n : Nat) : List Char := if n = 0 then ['0'] else encAux n

theorem encAuxF_fuel (f1 : Nat) :
    ∀ f2 n, n ≤ f1 → n ≤ f2 → encAuxF f1 n = encAuxF f2 n := by
  induction f1 with
  | zero =>
    intro f2 n h1 _
    interval_cases n
    cases f2 <;> rfl
  | succ f ih =>
    intro f2 n h1 h2
    match n, f2 with
    | 0, f2 => cases f2 <;> rfl
    | m + 1, 0 => omega
    | m + 1, g + 1 =>
      have hd : (m + 1) / 10 < m + 1 := Nat.div_lt_self (Nat.succ_pos m) (by norm_num)
      show encAuxF f ((m + 1) / 10) ++ _ = encAuxF g ((m + 1) / 10) ++ _
      rw [ih g ((m + 1) / 10) (by omega) (by omega)]

theorem encAux_zero : encAux 0 = [] := rfl

theorem encAux_succ (m : Nat) :
    encAux (m + 1) = encAux ((m + 1) / 10) ++ [digitChar ((m + 1) % 10)] := by
  have hd : (m + 1) / 10 < m + 1 := Nat.div_lt_self (Nat.succ_pos m) (by norm_num)
  show encAuxF m ((m + 1) / 10) ++ _ = encAuxF ((m + 1) / 10) ((m + 1) / 10) ++ _
  rw [encAuxF_fuel m ((m + 1) / 10) ((m + 1) / 10) (by omega) (by omega)]

/-- Accumulator-style decimal parse; models `int` applied to a digit string. -/
def decAux : Nat → List Char → Nat
  | acc, [] => acc
  | acc, c :: cs => decAux (acc * 10 + (c.toNat - 48)) cs

theorem decAux_nil (acc : Nat) : decAux acc [] = acc := rfl

theorem decAux_cons (acc : Nat) (c : Char) (cs : List Char) :
    decAux acc (c :: cs) = decAux (acc * 10 + (c.toNat - 48)) cs := rfl

theorem decAux_single (acc : Nat) (c : Char) :
    decAux acc [c] = acc * 10 + (c.toNat - 48) := rfl

/-- Longest digit run at the head of a basename. -/
def takeDigits (s : List Char) : List Char := s.takeWhile Char.isDigit

/-- Leading integer of a basename: models the `re.match` of a leading
digit run performed by the restart scanner, `none` when the basename
does not start with a digit (where the scanner would fail). -/
def leadingNat (s : List Char) : Option Nat :=
  if takeDigits s = [] then none else some (decAux 0 (takeDigits s))

/-- Holds when `pat` is an initial segment of `s`;
this is the glob pattern shape `pat*` on basenames. -/
def leadsWith : List Char → List Char → Bool
  | [], _ => true
  | _ :: _, [] => false
  | p :: ps, c :: cs => p == c && leadsWith ps cs

/-- Holds when `s` ends with `pat`; this is the glob
pattern shape `*pat` on basenames. -/
def trailsWith (pat s : List Char) : Bool := leadsWith pat.reverse s.reverse

/-- The character list of a string literal. -/
def chars (s : String) : List Char := s.data

theorem digitChar_isDigit (d : Nat) (h : d < 10) : (digitChar d).isDigit = true := by
  interval_cases d <;> decide

theorem digitChar_toNat (d : Nat) (h : d < 10) : (digitChar d).toNat - 48 = d := by
  interval_cases d <;> decide

theorem encAux_digits (n : Nat) : ∀ c ∈ encAux n, c.isDigit = true := by
  induction n using Nat.strong_induction_on with
  | _ n ih =>
    match n with
    | 0 => rw [encAux_zero]; simp
    | m + 1 =>
      rw [encAux_succ]
      intro c hc
      rcases List.mem_append.mp hc with h | h
      · exact ih ((m + 1) / 10) (Nat.div_lt_self (Nat.succ_pos m) (by norm_num)) c h
      · simp only [List.mem_singleton] at h
        subst h
        exact digitChar_isDigit _ (Nat.mod_lt _ (by norm_num))

theorem encNat_digits (n : Nat) : ∀ c ∈ encNat n, c.isDigit = true := by
  by_cases h : n = 0
  · subst h; simp [encNat]
  · simpa [encNat, h] using encAux_digits n

theorem encNat_ne_nil (n : Nat) : encNat n ≠ [] := by
  by_cases h : n = 0
  · subst h; simp [encNat]
  · have : encAux n ≠ [] := by
      match n, h with
      | m + 1, _ => rw [encAux_succ]; simp
    simpa [encNat, h]

theorem decAux_append (xs ys : List Char) :
    ∀ acc, decAux acc (xs ++ ys) = decAux (decAux acc xs) ys := by
  induction xs with
  | nil => intro acc; rfl
  | cons c cs ih => intro acc; exact ih (acc * 10 + (c.toNat - 48))

theorem decAux_encAux (n : Nat) :
    ∀ acc, decAux acc (encAux n) = acc * 10 ^ (encAux n).length + n := by
  induction n using Nat.strong_induction_on with
  | _ n ih =>
    match n with
    | 0 => intro acc; rw [encAux_zero, decAux_nil]; simp
    | m + 1 =>
      intro acc
      rw [encAux_succ, decAux_append]
      have hlt : (m + 1) / 10 < m + 1 := Nat.div_lt_self (Nat.succ_pos m) (by norm_num)
      rw [ih _ hlt acc, decAux_single,
        digitChar_toNat _ (Nat.mod_lt _ (by norm_num : (0:Nat) < 10))]
      rw [List.length_append]
      have hdm : 10 * ((m + 1) / 10) + (m + 1) % 10 = m + 1 := Nat.div_add_mod (m + 1) 10
      simp only [List.length_singleton]
      ring_nf
      omega

theorem decAux_encNat (n : Nat) : decAux 0 (encNat n) = n := by
  by_cases h : n = 0
  · subst h; decide
  · simp only [encNat, h, if_false]
    rw [decAux_encAux]
    ring

theorem encNat_inj {a b : Nat} (h : encNat a = encNat b) : a = b := by
  have := decAux_encNat a
  rw [h, decAux_encNat] at this
  omega

theorem takeDigits_append (xs : List Char) (c : Char) (ys : List Char)
    (hx : ∀ x ∈ xs, x.isDigit = true) (hc : c.isDigit = false) :
    takeDigits (xs ++ c :: ys) = xs := by
  induction xs with
  | nil => simp [takeDigits, List.takeWhile, hc]
  | cons a as ih =>
    have ha : a.isDigit = true := hx a (by simp)
    have ih2 := ih (fun x hxm => hx x (by simp [hxm]))
    simp only [takeDigits, List.cons_append, List.takeWhile] at *
    rw [ha] at *
    simp_all

theorem leadingNat_encNat (k : Nat) (rest : List Char) :
    leadingNat (encNat k ++ '.' :: rest) = some k := by
  have h1 : takeDigits (encNat k ++ '.' :: rest) = encNat k :=
    takeDigits_append _ _ _ (encNat_digits k) (by decide)
  rw [leadingNat, h1]
  simp [encNat_ne_nil k, decAux_encNat k]

theorem leadsWith_append (p r : List Char) : leadsWith p (p ++ r) = true := by
  induction p with
  | nil => rfl
  | cons c cs ih => simp [leadsWith, ih]

theorem trailsWith_append (xs pat : List Char) : trailsWith pat (xs ++ pat) = true := by
  simp only [trailsWith, List.reverse_append]
  exact leadsWith_append _ _

/-- Two decimal prefixes before a dot separator match only when they
denote the same digit run. -/
theorem leadsWith_dot_inj (xs : List Char) :
    ∀ ys p q, (∀ c ∈ xs, c.isDigit = true) → (∀ c ∈ ys, c.isDigit = true) →
    leadsWith (xs ++ '.' :: p) (ys ++ '.' :: q) = true →
    xs = ys ∧ leadsWith p q = true := by
  induction xs with
  | nil =>
    intro ys p q _ hy h
    match ys with
    | [] =>
      simp only [List.nil_append, leadsWith, Bool.and_eq_true, beq_iff_eq] at h
      exact ⟨rfl, h.2⟩
    | y :: ys2 =>
      exfalso
      simp only [List.nil_append, List.cons_append, leadsWith, Bool.and_eq_true,
        beq_iff_eq] at h
      have : y.isDigit = true := hy y (by simp)
      rw [← h.1] at this
      exact absurd this (by decide)
  | cons x xs2 ih =>
    intro ys p q hx hy h
    match ys with
    | [] =>
      exfalso
      simp only [List.cons_append, List.nil_append, leadsWith, Bool.and_eq_true,
        beq_iff_eq] at h
      have : x.isDigit = true := hx x (by simp)
      rw [h.1] at this
      exact absurd this (by decide)
    | y :: ys2 =>
      simp only [List.cons_append, leadsWith, Bool.and_eq_true, beq_iff_eq] at h
      obtain ⟨hxy, h2⟩ := h
      have := ih ys2 p q (fun c hc => hx c (by simp [hc])) (fun c hc => hy c (by simp [hc])) h2
      exact ⟨by rw [hxy, this.1], this.2⟩

theorem leadsWith_encNat_dot {i j : Nat} {p q : List Char}
    (h : leadsWith (encNat j ++ '.' :: p) (encNat i ++ '.' :: q) = true) :
    j = i ∧ leadsWith p q = true := by
  have := leadsWith_dot_inj (encNat j) (encNat i) p q (encNat_digits j) (encNat_digits i) h
  exact ⟨encNat_inj this.1, this.2⟩

/-!
Embedding of `pysimm/apps/mc_md.py`.

Checkpoint artifacts live in one simulation folder; names below are the
basenames inside that folder (the code joins them with `sim_folder`,
a common prefix dropped here).  They are built exactly as in the code:
`str (l)` concatenated with a literal suffix.
-/

/-- Suffix of the pre-MD checkpoint file `{l}.before_md.lmps`. -/
def beforeMdSuffix : List Char := '.' :: chars "before_md.lmps"

/-- Suffix of the post-MD coordinate file `{l}.md_out.xyz`. -/
def xyzSuffix : List Char := '.' :: chars "md_out.xyz"

/-- Suffix of the MD log file `{l}.md.log`. -/
def mdLogSuffix : List Char := '.' :: chars "md.log"

/-- Suffix of the MD dump file `{l}.md.dump`. -/
def mdDumpSuffix : List Char := '.' :: chars "md.dump"

/-- Pre-MD checkpoint basename for iteration `l`. -/
def beforeMdName (l : Nat) : List Char := encNat l ++ beforeMdSuffix

/-- Post-MD coordinate basename for iteration `l`. -/
def xyzName (l : Nat) : List Char := encNat l ++ xyzSuffix

/-- MD log basename for iteration `l`. -/
def mdLogName (l : Nat) : List Char := encNat l ++ mdLogSuffix

/-- MD dump basename for iteration `l`. -/
def mdDumpName (l : Nat) : List Char := encNat l ++ mdDumpSuffix

/-- Monte-Carlo run name `{l}.gcmc` for iteration `l`. -/
def gcmcRunName (l : Nat) : List Char := encNat l ++ '.' :: chars "gcmc"

/-- Monte-Carlo properties basename `{l}.gcmc_props.inp` for iteration `l`. -/
def gcmcPropsName (l : Nat) : List Char := encNat l ++ '.' :: chars "gcmc_props.inp"

/-- Whether a basename matches the restart scanner glob `*.before_md.lmps`. -/
def isBeforeMdFile (f : List Char) : Bool := trailsWith beforeMdSuffix f

/-- One step of the restart scan loop: for each matching file the scanner
takes the maximum of the accumulator and the leading integer of the
basename; a matching basename without a leading integer makes the regex
match fail (modelled as `none`). -/
def restartScanAux : Option Nat → List (List Char) → Option Nat
  | acc, [] => acc
  | none, _ :: _ => none
  | some l, f :: fs =>
    if isBeforeMdFile f then
      match leadingNat f with
      | some n => restartScanAux (some (max l n)) fs
      | none => none
    else restartScanAux (some l) fs

/-- The restart scan: starts from `l = 1` and folds over the directory. -/
def restartScan (files : List (List Char)) : Option Nat := restartScanAux (some 1) files

/-- The purge after the scan: every file matching `{l+1}.*` (stray
next-iteration artifacts) or `{l}.md*` (partial MD artifacts of the
resumed iteration) is removed. -/
def purgeList (files : List (List Char)) (l : Nat) : List (List Char) :=
  files.filter (fun f =>
    leadsWith (encNat (l + 1) ++ ['.']) f || leadsWith (encNat l ++ '.' :: chars "md") f)

/-- Externally visible actions of one mc_md run, in program order. -/
inductive Ev
  | addGcmc (run props : List Char)
  | mcLaunch (i : Nat)
  | resync (i : Nat) (src : List Char)
  | writeF (name : List Char)
  | mdRun (log dump : List Char)
deriving DecidableEq

/-- The events of one body of the `while l < n_iter + 1` loop.  With the
restart flag set the Monte-Carlo engine is not launched: the queued run
is re-synchronised from the `.chk` data and the `{l}.before_md.lmps`
checkpoint is read back instead; otherwise the engine runs and the
pre-MD checkpoint is written.  Both paths then write the pre-MD file
again for the MD input, run MD (log `{l}.md.log`, dump `{l}.md.dump`)
and write the post-MD coordinates `{l}.md_out.xyz`. -/
def iterEvents (l : Nat) (r : Bool) : List Ev :=
  [.addGcmc (gcmcRunName l) (gcmcPropsName l)]
  ++ (if r then [.resync l (beforeMdName l)]
      else [.mcLaunch l, .writeF (beforeMdName l)])
  ++ [.writeF (beforeMdName l), .mdRun (mdLogName l) (mdDumpName l), .writeF (xyzName l)]

/-- Fuel-indexed unfolding of the iteration loop; the restart flag is
cleared after the first iteration exactly as `is_restart = False` is. -/
def loopAux (nIter : Nat) : Nat → Nat → Bool → List Ev
  | 0, _, _ => []
  | fuel + 1, l, r =>
    if l < nIter + 1 then iterEvents l r ++ loopAux nIter fuel (l + 1) false else []

/-- Event trace of the loop started at iteration `l`. -/
def loopTrace (nIter l : Nat) (r : Bool) : List Ev := loopAux nIter (nIter + 1 - l) l r

/-- The `sim` variable threaded through the loop: set to the iteration
index whose MD phase last produced it; `return sim.system if sim else None`. -/
def loopRetAux (nIter : Nat) : Nat → Nat → Option Nat → Option Nat
  | 0, _, sim => sim
  | fuel + 1, l, sim =>
    if l < nIter + 1 then loopRetAux nIter fuel (l + 1) (some l) else sim

/-- Which iteration's MD result `mc_md` returns (`none` when the loop
body never ran and the function returns `None`). -/
def mcmdRet (nIter l0 : Nat) : Option Nat := loopRetAux nIter (nIter + 1 - l0) l0 none

/-- Full trace of a run: with restart the scan picks the start index
(and fails when a matching basename has no leading integer); without
restart the loop starts at iteration 1. -/
def mcmdEvents (nIter : Nat) (restart : Bool) (files : List (List Char)) :
    Option (List Ev) :=
  if restart then
    match restartScan files with
    | some l => some (loopTrace nIter l true)
    | none => none
  else some (loopTrace nIter 1 false)

/-- Decidable form of the scan wellformedness bound: every basename
matching `*.before_md.lmps` carries a leading integer at most `k`. -/
def scanBound (k : Nat) (files : List (List Char)) : Bool :=
  files.all (fun f =>
    !isBeforeMdFile f || ((leadingNat f).isSome && (leadingNat f).getD 0 ≤ k))

theorem beforeMdName_isBeforeMd (k : Nat) : isBeforeMdFile (beforeMdName k) = true := by
  unfold isBeforeMdFile beforeMdName
  exact trailsWith_append _ _

theorem leadingNat_beforeMdName (k : Nat) : leadingNat (beforeMdName k) = some k :=
  leadingNat_encNat k _

theorem restartScanAux_le {files : List (List Char)} :
    ∀ a m, restartScanAux (some a) files = some m → a ≤ m := by
  induction files with
  | nil => intro a m h; simp [restartScanAux] at h; omega
  | cons f fs ih =>
    intro a m h
    rw [restartScanAux] at h
    by_cases hf : isBeforeMdFile f
    · rw [if_pos hf] at h
      match hn : leadingNat f with
      | some n =>
        rw [hn] at h
        have := ih _ _ h
        omega
      | none => rw [hn] at h; exact absurd h (by simp)
    · rw [if_neg hf] at h
      exact ih _ _ h

theorem restartScanAux_bounded {k : Nat} {files : List (List Char)} :
    ∀ a, scanBound k files = true → a ≤ k →
    ∃ m, restartScanAux (some a) files = some m ∧ m ≤ k := by
  induction files with
  | nil => intro a _ ha; exact ⟨a, rfl, ha⟩
  | cons f fs ih =>
    intro a hb ha
    rw [scanBound, List.all_cons] at hb
    have hb1 := (Bool.and_eq_true _ _).mp hb
    have hbf := hb1.1
    have hbs : scanBound k fs = true := hb1.2
    rw [restartScanAux]
    by_cases hf : isBeforeMdFile f
    · rw [if_pos hf]
      rw [hf] at hbf
      simp only [Bool.not_true, Bool.false_or, Bool.and_eq_true, decide_eq_true_eq] at hbf
      match hn : leadingNat f with
      | some n =>
        rw [hn] at hbf
        have hnk : n ≤ k := by simpa using hbf.2
        exact ih (max a n) hbs (by omega)
      | none => rw [hn] at hbf; simp at hbf
    · rw [if_neg hf]
      exact ih a hbs ha

theorem restartScanAux_ge {k : Nat} {files : List (List Char)} :
    ∀ a m, beforeMdName k ∈ files → restartScanAux (some a) files = some m → k ≤ m := by
  induction files with
  | nil => intro a m h; simp at h
  | cons f fs ih =>
    intro a m hmem h
    rw [restartScanAux] at h
    rcases List.mem_cons.mp hmem with heq | htl
    · subst heq
      rw [if_pos (beforeMdName_isBeforeMd k), leadingNat_beforeMdName k] at h
      have := restartScanAux_le _ _ h
      omega
    · by_cases hf : isBeforeMdFile f
      · rw [if_pos hf] at h
        match hn : leadingNat f with
        | some n => rw [hn] at h; exact ih _ _ htl h
        | none => rw [hn] at h; exact absurd h (by simp)
      · rw [if_neg hf] at h
        exact ih _ _ htl h

/-- The restart scan finds exactly the highest iteration index holding a
pre-MD checkpoint, provided that index is at least the starting value 1. -/
theorem restartScan_eq {k : Nat} {files : List (List Char)}
    (hk : 1 ≤ k) (hmem : beforeMdName k ∈ files) (hb : scanBound k files = true) :
    restartScan files = some k := by
  obtain ⟨m, hm, hmk⟩ := restartScanAux_bounded (k := k) 1 hb hk
  have := restartScanAux_ge (k := k) 1 m hmem hm
  have hmk2 : m = k := by omega
  rw [restartScan, hm, hmk2]

theorem leadsWith_append_both (xs : List Char) :
    ∀ p q, leadsWith (xs ++ p) (xs ++ q) = leadsWith p q := by
  induction xs with
  | nil => intro p q; rfl
  | cons c cs ih => intro p q; simp [leadsWith, ih]

theorem purge_mem_of_md (k : Nat) (files : List (List Char)) (suffix : List Char)
    (hmem : (encNat k ++ '.' :: 'm' :: 'd' :: suffix) ∈ files) :
    (encNat k ++ '.' :: 'm' :: 'd' :: suffix) ∈ purgeList files k := by
  rw [purgeList, List.mem_filter]
  refine ⟨hmem, ?_⟩
  have h2 : leadsWith (encNat k ++ '.' :: chars "md")
      (encNat k ++ '.' :: 'm' :: 'd' :: suffix) = true := by
    rw [show ('.' :: 'm' :: 'd' :: suffix) = ('.' :: chars "md") ++ suffix from rfl,
      ← List.append_assoc]
    exact leadsWith_append _ _
  simp [h2]

theorem purge_mem_next (k : Nat) (files : List (List Char))
    (hmem : beforeMdName (k + 1) ∈ files) :
    beforeMdName (k + 1) ∈ purgeList files k := by
  rw [purgeList, List.mem_filter]
  refine ⟨hmem, ?_⟩
  have h1 : leadsWith (encNat (k + 1) ++ ['.']) (beforeMdName (k + 1)) = true := by
    rw [beforeMdName, beforeMdSuffix,
      show ('.' :: chars "before_md.lmps") = ['.'] ++ chars "before_md.lmps" from rfl,
      ← List.append_assoc]
    exact leadsWith_append _ _
  simp [h1]

theorem purge_not_mem_beforeMd {i k : Nat} (hik : i ≤ k) (files : List (List Char)) :
    beforeMdName i ∉ purgeList files k := by
  intro hmem
  rw [purgeList, List.mem_filter] at hmem
  have hpred := hmem.2
  rcases Bool.or_eq_true _ _ |>.mp hpred with h1 | h2
  · rw [show (encNat (k + 1) ++ ['.']) = (encNat (k + 1) ++ '.' :: []) from rfl] at h1
    rw [beforeMdName, beforeMdSuffix] at h1
    have := leadsWith_encNat_dot h1
    omega
  · rw [show (encNat k ++ '.' :: chars "md") = (encNat k ++ '.' :: chars "md") from rfl,
      beforeMdName, beforeMdSuffix] at h2
    have := leadsWith_encNat_dot h2
    exact absurd this.2 (by decide)

theorem mcLaunch_bounds {nIter : Nat} :
    ∀ fuel l r j, Ev.mcLaunch j ∈ loopAux nIter fuel l r → l ≤ j ∧ j ≤ nIter := by
  intro fuel
  induction fuel with
  | zero => intro l r j h; simp [loopAux] at h
  | succ f ih =>
    intro l r j h
    rw [loopAux] at h
    by_cases hc : l < nIter + 1
    · rw [if_pos hc] at h
      rcases List.mem_append.mp h with h1 | h2
      · have : j = l := by
          cases r
          · simp [iterEvents] at h1; omega
          · simp [iterEvents] at h1
        omega
      · have := ih (l + 1) false j h2
        omega
    · rw [if_neg hc] at h
      simp at h

theorem iterEvents_true_no_launch (l j : Nat) : Ev.mcLaunch j ∉ iterEvents l true := by
  simp [iterEvents]

theorem loopAux_mem_iter {nIter : Nat} :
    ∀ fuel l j, l ≤ j → j ≤ nIter → j < l + fuel →
    ∀ e ∈ iterEvents j false, e ∈ loopAux nIter fuel l false := by
  intro fuel
  induction fuel with
  | zero => intro l j h1 h2 h3; omega
  | succ f ih =>
    intro l j h1 h2 h3 e he
    rw [loopAux, if_pos (by omega : l < nIter + 1)]
    rcases Nat.eq_or_lt_of_le h1 with heq | hlt
    · subst heq
      exact List.mem_append.mpr (Or.inl he)
    · exact List.mem_append.mpr (Or.inr (ih (l + 1) j (by omega) h2 (by omega) e he))

theorem loopTrace_resume {nIter k : Nat} (hk : k ≤ nIter) :
    loopTrace nIter k true = iterEvents k true ++ loopAux nIter (nIter - k) (k + 1) false := by
  rw [loopTrace, show nIter + 1 - k = (nIter - k) + 1 from by omega, loopAux,
    if_pos (by omega : k < nIter + 1)]

theorem loopTrace_resume_no_launch {nIter k : Nat} (hk : k ≤ nIter) :
    Ev.mcLaunch k ∉ loopTrace nIter k true := by
  rw [loopTrace_resume hk]
  intro h
  rcases List.mem_append.mp h with h1 | h2
  · exact iterEvents_true_no_launch k k h1
  · have := mcLaunch_bounds _ _ _ _ h2
    omega

theorem loopTrace_resume_launch_later {nIter k j : Nat} (hk : k ≤ nIter)
    (hj1 : k < j) (hj2 : j ≤ nIter) :
    Ev.mcLaunch j ∈ loopTrace nIter k true := by
  rw [loopTrace_resume hk]
  refine List.mem_append.mpr (Or.inr ?_)
  exact loopAux_mem_iter (nIter - k) (k + 1) j (by omega) hj2 (by omega)
    (Ev.mcLaunch j) (by simp [iterEvents])

theorem loopTrace_resume_resync {nIter k : Nat} (hk : k ≤ nIter) :
    Ev.resync k (beforeMdName k) ∈ loopTrace nIter k true := by
  rw [loopTrace_resume hk]
  exact List.mem_append.mpr (Or.inl (by simp [iterEvents]))

theorem loopRetAux_run {nIter : Nat} :
    ∀ fuel l sim, l + fuel = nIter + 1 → 1 ≤ fuel →
    loopRetAux nIter fuel l sim = some nIter := by
  intro fuel
  induction fuel with
  | zero => intro l sim h1 h2; omega
  | succ f ih =>
    intro l sim h1 _
    rw [loopRetAux, if_pos (by omega : l < nIter + 1)]
    rcases Nat.eq_zero_or_pos f with hf | hf
    · subst hf
      rw [loopRetAux]
      have : l = nIter := by omega
      rw [this]
    · exact ih (l + 1) (some l) (by omega) hf

/-- C1.  Resuming over a checkpoint directory whose highest completed
pre-MD checkpoint is iteration `k` (every matching basename carries an
index at most `k`): the scan determines `k`; the purge removes the
iteration-`(k+1)` artifacts and the iteration-`k` MD artifacts but no
pre-MD checkpoint up to `k`; iteration `k` is replayed by
re-synchronising from the iteration-`k` checkpoint without launching the
Monte-Carlo engine, and every later iteration up to the configured count
launches it normally. -/
theorem mcmd_c1_restart_resume (k nIter : Nat) (files : List (List Char))
    (hk : 1 ≤ k) (hkn : k ≤ nIter)
    (hmem : beforeMdName k ∈ files) (hb : scanBound k files = true) :
    restartScan files = some k
    ∧ mcmdEvents nIter true files = some (loopTrace nIter k true)
    ∧ (∀ i, i ≤ k → beforeMdName i ∉ purgeList files k)
    ∧ (xyzName k ∈ files → xyzName k ∈ purgeList files k)
    ∧ (mdLogName k ∈ files → mdLogName k ∈ purgeList files k)
    ∧ (mdDumpName k ∈ files → mdDumpName k ∈ purgeList files k)
    ∧ (beforeMdName (k + 1) ∈ files → beforeMdName (k + 1) ∈ purgeList files k)
    ∧ Ev.resync k (beforeMdName k) ∈ loopTrace nIter k true
    ∧ Ev.mcLaunch k ∉ loopTrace nIter k true
    ∧ (∀ j, k < j → j ≤ nIter → Ev.mcLaunch j ∈ loopTrace nIter k true) := by
  have hscan : restartScan files = some k := restartScan_eq hk hmem hb
  refine ⟨hscan, ?_, ?_, ?_, ?_, ?_, ?_, ?_, ?_, ?_⟩
  · rw [mcmdEvents, if_pos rfl, hscan]
  · intro i hi
    exact purge_not_mem_beforeMd hi files
  · intro h
    exact purge_mem_of_md k files _ (by rw [show xyzName k =
      encNat k ++ '.' :: 'm' :: 'd' :: chars "_out.xyz" from rfl] at h; exact h)
  · intro h
    exact purge_mem_of_md k files _ (by rw [show mdLogName k =
      encNat k ++ '.' :: 'm' :: 'd' :: chars ".log" from rfl] at h; exact h)
  · intro h
    exact purge_mem_of_md k files _ (by rw [show mdDumpName k =
      encNat k ++ '.' :: 'm' :: 'd' :: chars ".dump" from rfl] at h; exact h)
  · exact purge_mem_next k files
  · exact loopTrace_resume_resync hkn
  · exact loopTrace_resume_no_launch hkn
  · intro j hj1 hj2
    exact loopTrace_resume_launch_later hkn hj1 hj2

/-- A directory left after iteration 2 completed fully (of 3 configured). -/
def c1Files : List (List Char) :=
  [beforeMdName 1, xyzName 1, mdLogName 1, mdDumpName 1,
   beforeMdName 2, xyzName 2, mdLogName 2, mdDumpName 2]

/-- C1 witness at `k = 2`, `n_iter = 3`. -/
theorem mcmd_c1_restart_resume_witness :
    restartScan c1Files = some 2 ∧ Ev.mcLaunch 3 ∈ loopTrace 3 2 true :=
  ⟨(mcmd_c1_restart_resume 2 3 c1Files (by decide) (by decide) (by decide) (by decide)).1,
   (mcmd_c1_restart_resume 2 3 c1Files (by decide) (by decide) (by decide)
     (by decide)).2.2.2.2.2.2.2.2.2 3 (by decide) (by decide)⟩

/-- C2.  A fresh run over `N` configured iterations performs, for every
iteration `i` in `1..N`, the Monte-Carlo job construction (run name
`{i}.gcmc`, properties file `{i}.gcmc_props.inp`), the engine launch,
the pre-MD checkpoint write `{i}.before_md.lmps`, the MD run (log
`{i}.md.log`, dump `{i}.md.dump`) and the post-MD write `{i}.md_out.xyz`;
the engine is launched for no other index; the returned system is the
one produced by the last MD phase; and with zero configured iterations
the loop body never runs and nothing is returned. -/
theorem mcmd_c2_iterations (N : Nat) :
    (∀ i, 1 ≤ i → i ≤ N →
      Ev.addGcmc (gcmcRunName i) (gcmcPropsName i) ∈ loopTrace N 1 false
      ∧ Ev.mcLaunch i ∈ loopTrace N 1 false
      ∧ Ev.writeF (beforeMdName i) ∈ loopTrace N 1 false
      ∧ Ev.mdRun (mdLogName i) (mdDumpName i) ∈ loopTrace N 1 false
      ∧ Ev.writeF (xyzName i) ∈ loopTrace N 1 false)
    ∧ (∀ j, Ev.mcLaunch j ∈ loopTrace N 1 false → 1 ≤ j ∧ j ≤ N)
    ∧ (1 ≤ N → mcmdRet N 1 = some N)
    ∧ mcmdRet 0 1 = none
    ∧ loopTrace 0 1 false = [] := by
  have hfuel : N + 1 - 1 = N := by omega
  refine ⟨?_, ?_, ?_, rfl, rfl⟩
  · intro i h1 h2
    rw [loopTrace, hfuel]
    refine ⟨?_, ?_, ?_, ?_, ?_⟩ <;>
      exact loopAux_mem_iter N 1 i h1 h2 (by omega) _ (by simp [iterEvents])
  · intro j h
    rw [loopTrace, hfuel] at h
    exact mcLaunch_bounds N 1 false j h
  · intro hN
    rw [mcmdRet, hfuel]
    exact loopRetAux_run N 1 none (by omega) hN

/-- C2 witness at `N = 2`, `i = 1`. -/
theorem mcmd_c2_iterations_witness :
    Ev.mcLaunch 1 ∈ loopTrace 2 1 false ∧ mcmdRet 2 1 = some 2 :=
  ⟨((mcmd_c2_iterations 2).1 1 (by decide) (by decide)).2.1,
   (mcmd_c2_iterations 2).2.2.1 (by decide)⟩

/-- C9 (amended).  When restart is requested over an empty checkpoint
directory the scan still yields index 1 and the restart branch is taken:
iteration 1 re-synchronises from the (nonexistent) `1.before_md.lmps`
checkpoint instead of launching the Monte-Carlo engine, so the run is
not equivalent to a fresh start. -/
theorem mcmd_c9_restart_no_checkpoints (n : Nat) :
    restartScan ([] : List (List Char)) = some 1
    ∧ purgeList [] 1 = []
    ∧ mcmdEvents (n + 1) true [] = some (loopTrace (n + 1) 1 true)
    ∧ Ev.resync 1 (beforeMdName 1) ∈ loopTrace (n + 1) 1 true
    ∧ Ev.mcLaunch 1 ∉ loopTrace (n + 1) 1 true
    ∧ beforeMdName 1 ∉ ([] : List (List Char)) := by
  refine ⟨rfl, rfl, ?_, ?_, ?_, by simp⟩
  · rw [mcmdEvents, if_pos rfl]
    rfl
  · exact loopTrace_resume_resync (by omega)
  · exact loopTrace_resume_no_launch (by omega)

/-- C9 counterexample: with restart enabled and no checkpoints, iteration
1 does not launch the Monte-Carlo engine (a fresh start does). -/
theorem mcmd_c9_counterexample :
    mcmdEvents 2 true [] = some (loopTrace 2 1 true)
    ∧ Ev.mcLaunch 1 ∉ loopTrace 2 1 true
    ∧ Ev.resync 1 (beforeMdName 1) ∈ loopTrace 2 1 true
    ∧ Ev.mcLaunch 1 ∈ loopTrace 2 1 false := by decide

/-- The `gas_sst` argument of `mc_md` as supplied by the caller. -/
inductive GasInput (S : Type)
  | noneI : GasInput S
  | single (s : S) : GasInput S
  | listI (xs : List S) : GasInput S

/-- Outcome of the input-validation prologue of `mc_md`. -/
inductive InitResult (S : Type)
  | exitNoGas : InitResult S
  | exitNoMC : InitResult S
  | exitNoChemPot : InitResult S
  | exitNoMD : InitResult S
  | attrError : InitResult S
  | proceed (gases : List S) (chemPot : List Int) : InitResult S
deriving DecidableEq

/-- The gas normalisation of `mc_md`.  A single `system.System` becomes a
one-element list; a falsy argument (`None`, the empty list) leaves the
list empty.  Under Python 3 the branch `isinstance(gas_sst,
types.ListType)` raises `AttributeError` (`types.ListType` no longer
exists), and it is reached exactly when the argument is truthy and not a
`system.System` — in particular for every non-empty list. -/
def collectGases {S : Type} : GasInput S → Except Unit (List S)
  | .noneI => .ok []
  | .single s => .ok [s]
  | .listI [] => .ok []
  | .listI (_ :: _) => .error ()

/-- Monte-Carlo settings: the `Chemical_Potential_Info` entry, `none`
when the key is absent.  Modelled from the spec: a missing or empty
chemical-potential sequence is a fatal configuration error (the
`cassandra.make_iterable` helper is not among the sources, so a missing
entry is modelled directly as the absent/empty sequence the spec
describes). -/
structure MCSettings where
  chemPot : Option (List Int)
deriving DecidableEq

/-- The validation prologue of `mc_md`, in program order: gases are
normalised (possibly raising), an empty gas list aborts, missing MC
settings abort, a missing or empty chemical-potential sequence aborts,
missing MD settings abort; otherwise the loop is entered with the
species in their given order. -/
def mcmdInit {S : Type} (g : GasInput S) (mc : Option MCSettings) (md : Bool) :
    InitResult S :=
  match collectGases g with
  | .error _ => .attrError
  | .ok gases =>
    if gases.isEmpty then .exitNoGas
    else
      match mc with
      | none => .exitNoMC
      | some mcp =>
        match mcp.chemPot with
        | none => .exitNoChemPot
        | some cp =>
          if cp.isEmpty then .exitNoChemPot
          else if md then .proceed gases cp else .exitNoMD

/-- C4.  Each missing required input aborts with its diagnostic exit, and
a single-system gas argument with complete settings proceeds — but a
non-empty Python list of gas systems, the documented input shape, never
reaches the loop: the `types.ListType` probe raises `AttributeError`
under Python 3, so the species are not accepted in order as claimed. -/
theorem mcmd_c4_init_validation :
    mcmdInit (GasInput.single 7) (some ⟨some [1]⟩) true = InitResult.proceed [7] [1]
    ∧ mcmdInit (GasInput.listI [7, 8]) (some ⟨some [1]⟩) true = InitResult.attrError
    ∧ mcmdInit (GasInput.listI ([] : List Nat)) (some ⟨some [1]⟩) true
        = InitResult.exitNoGas
    ∧ mcmdInit (GasInput.noneI : GasInput Nat) (some ⟨some [1]⟩) true
        = InitResult.exitNoGas
    ∧ mcmdInit (GasInput.single 7) none true = InitResult.exitNoMC
    ∧ mcmdInit (GasInput.single 7) (some ⟨none⟩) true = InitResult.exitNoChemPot
    ∧ mcmdInit (GasInput.single 7) (some ⟨some []⟩) true = InitResult.exitNoChemPot
    ∧ mcmdInit (GasInput.single 7) (some ⟨some [1]⟩) false = InitResult.exitNoMD :=
  ⟨rfl, rfl, rfl, rfl, rfl, rfl, rfl, rfl⟩

/-- The saved `OMP_NUM_THREADS` value `nm_treads`, defaulting to the
string `1` when the variable is unset. -/
def savedThreads (env : Option (List Char)) : List Char :=
  match env with
  | some v => v
  | none => ['1']

/-- During the MD phase the variable is forced to `1`. -/
def envDuringMd (_env : Option (List Char)) : Option (List Char) := some ['1']

/-- The variable after the MD phase: the restoring assignment runs only
on normal return of `sim.run`; when the phase raises, the assignment is
skipped (there is no `try/finally`) and the override stays in place. -/
def envAfterMd (env : Option (List Char)) (runCompleted : Bool) : Option (List Char) :=
  if runCompleted then some (savedThreads env) else envDuringMd env

/-- C7 counterexample: when `OMP_NUM_THREADS` was previously unset, the
MD phase leaves it set to `1` rather than restoring its absence. -/
theorem mcmd_c7_counterexample :
    envAfterMd none true = some ['1'] ∧ envAfterMd none true ≠ none := by decide

/-- C7 (amended).  The variable is overridden to `1` for the MD phase;
after a normally-completed phase a previously-set value is restored
exactly, while a previously-unset variable ends up set to `1`; if the
phase raises, no restoration happens and the override remains. -/
theorem mcmd_c7_thread_env (v : List Char) (e : Option (List Char)) :
    envDuringMd e = some ['1']
    ∧ envAfterMd (some v) true = some v
    ∧ envAfterMd none true = some ['1']
    ∧ envAfterMd e false = some ['1'] :=
  ⟨rfl, rfl, rfl, rfl⟩

/-- The per-species suffix `_g{gi+1}` appended to every particle type
name of the gas species at 0-based position `gi`. -/
def suffTag (gi : Nat) : List Char := '_' :: 'g' :: encNat (gi + 1)

/-- The de-synchronisation pass over the gas species list, run exactly
once between validation and the iteration loop (so before any
Monte-Carlo job is constructed): species `gi` has each of its particle
type names suffixed with `_g{gi+1}`. -/
def suffixFrom (gi : Nat) : List (List (List Char)) → List (List (List Char))
  | [] => []
  | g :: gs => g.map (fun nm => nm ++ suffTag gi) :: suffixFrom (gi + 1) gs

/-- The suffixing pass applied to the whole species list. -/
def suffixGases (gases : List (List (List Char))) : List (List (List Char)) :=
  suffixFrom 0 gases

/-- Modelled from the spec: the working system's type registry keys
particle-type records by name, consolidating equal names into a single
record (the pysimm `system` container is not among the sources). -/
def registerNames (names : List (List Char)) : List (List Char) :=
  names.foldl (fun acc nm => if nm ∈ acc then acc else acc ++ [nm]) []

theorem suffixFrom_get? (gs : List (List (List Char))) :
    ∀ a i, (suffixFrom a gs).get? i
      = (gs.get? i).map (fun g => g.map (fun nm => nm ++ suffTag (a + i))) := by
  induction gs with
  | nil => intro a i; simp [suffixFrom]
  | cons g tl ih =>
    intro a i
    match i with
    | 0 => simp [suffixFrom]
    | i + 1 =>
      simp only [suffixFrom, List.get?_cons_succ]
      rw [ih (a + 1) i, show a + 1 + i = a + (i + 1) from by omega]

theorem registerNames_fold_mem (names : List (List Char)) :
    ∀ acc x, (x ∈ names.foldl
        (fun acc nm => if nm ∈ acc then acc else acc ++ [nm]) acc)
      ↔ x ∈ acc ∨ x ∈ names := by
  induction names with
  | nil => intro acc x; simp
  | cons nm tl ih =>
    intro acc x
    simp only [List.foldl_cons]
    by_cases h : nm ∈ acc
    · rw [if_pos h, ih]
      constructor
      · rintro (h1 | h1)
        · exact Or.inl h1
        · exact Or.inr (by simp [h1])
      · rintro (h1 | h1)
        · exact Or.inl h1
        · rcases List.mem_cons.mp h1 with h2 | h2
          · subst h2; exact Or.inl h
          · exact Or.inr h2
    · rw [if_neg h, ih]
      constructor
      · rintro (h1 | h1)
        · rcases List.mem_append.mp h1 with h2 | h2
          · exact Or.inl h2
          · simp only [List.mem_singleton] at h2; subst h2; exact Or.inr (by simp)
        · exact Or.inr (by simp [h1])
      · rintro (h1 | h1)
        · exact Or.inl (List.mem_append.mpr (Or.inl h1))
        · rcases List.mem_cons.mp h1 with h2 | h2
          · subst h2; exact Or.inl (List.mem_append.mpr (Or.inr (by simp)))
          · exact Or.inr h2

theorem mem_registerNames {names : List (List Char)} {x : List Char} (h : x ∈ names) :
    x ∈ registerNames names := by
  rw [registerNames, registerNames_fold_mem]
  exact Or.inr h

theorem suffTag_inj {i j : Nat} (h : suffTag i = suffTag j) : i = j := by
  rw [suffTag, suffTag] at h
  have h2 : encNat (i + 1) = encNat (j + 1) := by
    injection h with _ h1
    injection h1
  have := encNat_inj h2
  omega

/-- C6.  The suffixing pass, run once before the loop, renames every
type of species `i` with `_g{i+1}`; two species both holding the bare
name `C1` end up with distinct registered names, so the name-keyed
registry keeps two distinct records. -/
theorem mcmd_c6_species_types_distinct (gases : List (List (List Char))) (i j : Nat)
    (gi gj : List (List Char)) (hij : i ≠ j)
    (hgi : gases.get? i = some gi) (hgj : gases.get? j = some gj)
    (hci : chars "C1" ∈ gi) (hcj : chars "C1" ∈ gj) :
    (suffixGases gases).get? i = some (gi.map (fun nm => nm ++ suffTag i))
    ∧ (suffixGases gases).get? j = some (gj.map (fun nm => nm ++ suffTag j))
    ∧ chars "C1" ++ suffTag i ≠ chars "C1" ++ suffTag j
    ∧ chars "C1" ++ suffTag i ∈ registerNames (suffixGases gases).flatten
    ∧ chars "C1" ++ suffTag j ∈ registerNames (suffixGases gases).flatten := by
  have hi : (suffixGases gases).get? i = some (gi.map (fun nm => nm ++ suffTag i)) := by
    rw [suffixGases, suffixFrom_get? gases 0 i, hgi]
    simp
  have hj : (suffixGases gases).get? j = some (gj.map (fun nm => nm ++ suffTag j)) := by
    rw [suffixGases, suffixFrom_get? gases 0 j, hgj]
    simp
  refine ⟨hi, hj, ?_, ?_, ?_⟩
  · intro h
    exact hij (suffTag_inj (List.append_cancel_left h))
  · exact mem_registerNames (List.mem_flatten.mpr
      ⟨gi.map (fun nm => nm ++ suffTag i), List.get?_mem hi,
        List.mem_map_of_mem _ hci⟩)
  · exact mem_registerNames (List.mem_flatten.mpr
      ⟨gj.map (fun nm => nm ++ suffTag j), List.get?_mem hj,
        List.mem_map_of_mem _ hcj⟩)

/-- C6 witness: two one-type species both named `C1`. -/
theorem mcmd_c6_species_types_distinct_witness :
    chars "C1" ++ suffTag 0 ≠ chars "C1" ++ suffTag 1
    ∧ chars "C1" ++ suffTag 0 ∈ registerNames (suffixGases [[chars "C1"], [chars "C1"]]).flatten :=
  ⟨(mcmd_c6_species_types_distinct [[chars "C1"], [chars "C1"]] 0 1 [chars "C1"]
      [chars "C1"] (by decide) (by decide) (by decide) (by decide) (by decide)).2.2.1,
   (mcmd_c6_species_types_distinct [[chars "C1"], [chars "C1"]] 0 1 [chars "C1"]
      [chars "C1"] (by decide) (by decide) (by decide) (by decide) (by decide)).2.2.2.1⟩

/-- Identity of a LAMMPS fix created by the MD phase: the rigid NVT fix
`rig_fix_{it}`, the main NPT fix `main_fix_{it}` or the tether spring
fix `tether_fix_{it}` of stage `it`. -/
inductive FixKind
  | rig : FixKind
  | main : FixKind
  | tether : FixKind
deriving DecidableEq

/-- A stage-indexed fix name. -/
structure FixId where
  kind : FixKind
  stage : Nat
deriving DecidableEq

/-- Script-level commands issued by the MD phase (fix parameters such as
ensemble, timestep, temperature and pressure are carried by the engine
adapter and are not part of the ordering the claims are about). -/
inductive MdCmd
  | output : MdCmd
  | velCreate : MdCmd
  | runZero : MdCmd
  | velScale : MdCmd
  | addFix (f : FixId) : MdCmd
  | runSteps (lng : Nat) : MdCmd
  | unfix (f : FixId) : MdCmd
deriving DecidableEq

/-- One stage of the multi-stage (list timestep) branch, for zipped pair
index `it` with stage length `lng`: a fresh velocity initialisation; with
a rigid group a zero-length pre-run plus a velocity rescale and the
rigid fix; the main fix; the tether fix; the stage run; then the three
`unfix` lines — `main_fix_{it}`, `rig_fix_{it}` and `tether_fix_{it}` —
issued unconditionally. -/
def stageCmds (rigid : Bool) (it lng : Nat) : List MdCmd :=
  [.velCreate]
  ++ (if rigid then [.runZero, .velScale] else [])
  ++ (if rigid then [.addFix ⟨.rig, it⟩] else [])
  ++ [.addFix ⟨.main, it⟩, .addFix ⟨.tether, it⟩, .runSteps lng,
      .unfix ⟨.main, it⟩, .unfix ⟨.rig, it⟩, .unfix ⟨.tether, it⟩]

/-- The multi-stage branch: output settings once, then one stage per
`(timestep, length)` pair of `zip (timestep) (length)` in list order. -/
def multiStage (rigid : Bool) (timesteps : List Int) (lengths : List Nat) : List MdCmd :=
  .output :: ((timesteps.zip lengths).enum.map (fun p => stageCmds rigid p.1 p.2.2)).flatten

/-- The fixes created by a command list. -/
def addedFixes (cmds : List MdCmd) : List FixId :=
  cmds.filterMap (fun c => match c with | .addFix f => some f | _ => none)

/-- The fixes removed by a command list. -/
def removedFixes (cmds : List MdCmd) : List FixId :=
  cmds.filterMap (fun c => match c with | .unfix f => some f | _ => none)

/-- C5 counterexample: with timesteps `[1.0, 2.0]`, lengths
`[1000, 2000]` and no rigid group, stage 0 removes `rig_fix_0`, a fix it
never created, so the removed set is not exactly the created set. -/
theorem mcmd_c5_counterexample :
    (FixId.mk FixKind.rig 0) ∈ removedFixes (stageCmds false 0 1000)
    ∧ (FixId.mk FixKind.rig 0) ∉ addedFixes (stageCmds false 0 1000)
    ∧ MdCmd.unfix ⟨FixKind.rig, 0⟩ ∈ multiStage false [1, 2] [1000, 2000]
    ∧ MdCmd.addFix ⟨FixKind.rig, 0⟩ ∉ multiStage false [1, 2] [1000, 2000] := by decide

/-- C5 (amended).  The multi-stage branch emits one stage per zipped
`(timestep, length)` pair in order; every stage begins with a fresh
velocity initialisation, and contains the zero-length pre-run and the
velocity rescale exactly when a rigid group exists; each stage ends by
removing `main_fix_{it}`, `rig_fix_{it}` and `tether_fix_{it}` — with a
rigid group these are exactly the fixes the stage created, without one
the `rig_fix_{it}` removal names a fix that was never created. -/
theorem mcmd_c5_staged_md (rigid : Bool) (timesteps : List Int) (lengths : List Nat)
    (it lng : Nat) :
    multiStage rigid timesteps lengths
      = .output :: ((timesteps.zip lengths).enum.map
          (fun p => stageCmds rigid p.1 p.2.2)).flatten
    ∧ (stageCmds rigid it lng).head? = some .velCreate
    ∧ (MdCmd.runZero ∈ stageCmds rigid it lng ↔ rigid = true)
    ∧ (MdCmd.velScale ∈ stageCmds rigid it lng ↔ rigid = true)
    ∧ removedFixes (stageCmds rigid it lng) = [⟨.main, it⟩, ⟨.rig, it⟩, ⟨.tether, it⟩]
    ∧ addedFixes (stageCmds rigid it lng)
        = (if rigid then [⟨.rig, it⟩] else []) ++ [⟨.main, it⟩, ⟨.tether, it⟩]
    ∧ (∀ f, f ∈ removedFixes (stageCmds rigid it lng)
        ↔ (f ∈ addedFixes (stageCmds rigid it lng) ∨ (rigid = false ∧ f = ⟨.rig, it⟩))) := by
  refine ⟨rfl, ?_, ?_, ?_, ?_, ?_, ?_⟩ <;> cases rigid
  · rfl
  · rfl
  · simp [stageCmds]
  · simp [stageCmds]
  · simp [stageCmds]
  · simp [stageCmds]
  · simp [stageCmds, removedFixes]
  · simp [stageCmds, removedFixes]
  · simp [stageCmds, addedFixes]
  · simp [stageCmds, addedFixes]
  · intro f
    simp [stageCmds, removedFixes, addedFixes]
    tauto
  · intro f
    simp [stageCmds, removedFixes, addedFixes]
    tauto

/-- Warnings printed by `get_forcefield_types`: the per-distinct-name
missing-type warning, the one-time c5/c6 deprecated-alias warning, and
the one-time `writing Missing_Types.pdb` warning. -/
inductive AWarn
  | notFound (nm : String) : AWarn
  | aliasC5C6 (nm : String) : AWarn
  | missingPdb : AWarn
deriving DecidableEq

/-- The mutable state threaded through the ATOM rows of the antechamber
output by `get_forcefield_types`: the system's registered type names,
the per-particle bindings performed (`tag`, bound type name), the
`missing_types` set, the two one-time flags, the warnings and
`error_print` messages in emission order, and the number of
`write_pdb ('Missing_Types.pdb')` calls. -/
structure AmbState where
  sysTypes : List String
  assigned : List (Nat × String)
  missingTypes : List String
  c5c6Flag : Bool
  warningPdbFlag : Bool
  warns : List AWarn
  errs : List String
  pdbWrites : Nat
deriving DecidableEq

/-- Models `container.get (name)`: the registered records matching a name. -/
def getT (reg : List String) (nm : String) : List String :=
  reg.filter (fun x => x == nm)

/-- The state at entry of `get_forcefield_types`. -/
def initAmbState (sysTypes0 : List String) : AmbState :=
  { sysTypes := sysTypes0, assigned := [], missingTypes := [], c5c6Flag := false,
    warningPdbFlag := false, warns := [], errs := [], pdbWrites := 0 }

/-- One ATOM row `(tag, type_name)` of the antechamber output, under
naming scheme `scheme` and optional fallback force field `ff`: bind to a
type already registered in the system; otherwise consult the fallback —
warn once per distinct missing name; under scheme `gaff2` substitute
`c3` for a `c5`/`c6` name only while the one-time flag is unset;
otherwise, for a missing name, warn once overall and write the
`Missing_Types.pdb` snapshot (the write itself is not guarded by the
flag); finally bind and register the found record, if any.  With no
fallback force field the failure is reported via `error_print` and the
particle is skipped. -/
def processRow (scheme : String) (ff : Option (List String)) (st : AmbState)
    (tag : Nat) (ty : String) : AmbState :=
  if getT st.sysTypes ty ≠ [] then
    { st with assigned := st.assigned ++ [(tag, ty)] }
  else
    match ff with
    | some ffT =>
      let pt0 := getT ffT ty
      let st1 := if pt0 = [] ∧ ty ∉ st.missingTypes then
          { st with warns := st.warns ++ [.notFound ty],
                    missingTypes := st.missingTypes ++ [ty] }
        else st
      let ptSt :=
        if scheme == "gaff2" && (ty == "c5" || ty == "c6") then
          if st1.c5c6Flag then (pt0, st1)
          else (getT ffT "c3",
            { st1 with warns := st1.warns ++ [.aliasC5C6 ty], c5c6Flag := true })
        else if pt0 = [] then
          (pt0,
            let st2 := if st1.warningPdbFlag then st1
              else { st1 with warns := st1.warns ++ [.missingPdb],
                              warningPdbFlag := true }
            { st2 with pdbWrites := st2.pdbWrites + 1 })
        else (pt0, st1)
      match ptSt.1 with
      | [] => ptSt.2
      | p :: _ =>
        { ptSt.2 with sysTypes := ptSt.2.sysTypes ++ [p],
                      assigned := ptSt.2.assigned ++ [(tag, p)] }
    | none => { st with errs := st.errs ++ [ty] }

/-- The row loop of `get_forcefield_types` over the consecutive ATOM
rows of the antechamber output. -/
def getForcefieldTypes (scheme : String) (ff : Option (List String))
    (sysTypes0 : List String) (rows : List (Nat × String)) : AmbState :=
  rows.foldl (fun st r => processRow scheme ff st r.1 r.2) (initAmbState sysTypes0)

/-- The deprecated-alias warnings among the emitted warnings. -/
def aliasWarns (st : AmbState) : List AWarn :=
  st.warns.filter (fun w => match w with | AWarn.aliasC5C6 _ => true | _ => false)

/-- C3.  Two particles typed `c6` under scheme `gaff2` with a fallback
force field holding `c3` but not `c6`: the deprecated-alias warning is
emitted exactly once, but only the first particle is bound to `c3` —
the one-time flag also gates the substitution itself, so the second
particle is left without any binding. -/
theorem amber_c3_eval :
    getForcefieldTypes "gaff2" (some ["c3"]) [] [(1, "c6"), (2, "c6")]
      = { sysTypes := ["c3"], assigned := [(1, "c3")], missingTypes := ["c6"],
          c5c6Flag := true, warningPdbFlag := false,
          warns := [AWarn.notFound "c6", AWarn.aliasC5C6 "c6"], errs := [],
          pdbWrites := 0 }
    ∧ (aliasWarns (getForcefieldTypes "gaff2" (some ["c3"]) [] [(1, "c6"), (2, "c6")])).length = 1
    ∧ (getForcefieldTypes "gaff2" (some ["c3"]) [] [(1, "c6"), (2, "c6")]).assigned.filter
        (fun p => p.1 == 2) = [] := by decide

theorem processRow_first (scheme t0 : String) (sys0 ffT : List String) (tag : Nat)
    (h1 : getT sys0 t0 = []) (h2 : getT ffT t0 = [])
    (h3 : (scheme == "gaff2" && (t0 == "c5" || t0 == "c6")) = false) :
    processRow scheme (some ffT) (initAmbState sys0) tag t0
      = { sysTypes := sys0, assigned := [], missingTypes := [t0], c5c6Flag := false,
          warningPdbFlag := true, warns := [AWarn.notFound t0, AWarn.missingPdb],
          errs := [], pdbWrites := 1 } := by
  simp [processRow, initAmbState, h1, h2, h3]

theorem processRow_saturated (scheme t0 : String) (ffT : List String)
    (st : AmbState) (tag : Nat)
    (h1 : getT st.sysTypes t0 = []) (h2 : getT ffT t0 = [])
    (h3 : (scheme == "gaff2" && (t0 == "c5" || t0 == "c6")) = false)
    (hmiss : t0 ∈ st.missingTypes) (hflag : st.warningPdbFlag = true) :
    processRow scheme (some ffT) st tag t0 = { st with pdbWrites := st.pdbWrites + 1 } := by
  simp [processRow, h1, h2, h3, hmiss, hflag]

theorem fold_saturated (scheme t0 : String) (ffT : List String) :
    ∀ (tags : List Nat) (st : AmbState),
    getT st.sysTypes t0 = [] → getT ffT t0 = [] →
    (scheme == "gaff2" && (t0 == "c5" || t0 == "c6")) = false →
    t0 ∈ st.missingTypes → st.warningPdbFlag = true →
    (tags.map (fun t => (t, t0))).foldl
        (fun st r => processRow scheme (some ffT) st r.1 r.2) st
      = { st with pdbWrites := st.pdbWrites + tags.length } := by
  intro tags
  induction tags with
  | nil => intro st _ _ _ _ _; simp
  | cons t tl ih =>
    intro st h1 h2 h3 hmiss hflag
    rw [List.map_cons, List.foldl_cons]
    simp only [processRow_saturated scheme t0 ffT st t h1 h2 h3 hmiss hflag]
    rw [ih { st with pdbWrites := st.pdbWrites + 1 } h1 h2 h3 hmiss hflag]
    simp only [List.length_cons]
    congr 1
    omega

/-- C8 (amended).  For particles of one type name missing from both the
system registry and the fallback force field (and not a `gaff2`
deprecated alias): the missing-type warning fires once for the distinct
name, the `writing Missing_Types.pdb` warning fires once overall, every
such particle is left unresolved — but the snapshot itself is re-written
once per affected particle (always to the same fixed path, so a single
file results on disk). -/
theorem amber_c8_snapshot_per_particle (scheme t0 : String) (sys0 ffT : List String)
    (tag0 : Nat) (tags : List Nat)
    (h1 : getT sys0 t0 = []) (h2 : getT ffT t0 = [])
    (h3 : (scheme == "gaff2" && (t0 == "c5" || t0 == "c6")) = false) :
    getForcefieldTypes scheme (some ffT) sys0 ((tag0 :: tags).map (fun t => (t, t0)))
      = { sysTypes := sys0, assigned := [], missingTypes := [t0], c5c6Flag := false,
          warningPdbFlag := true, warns := [AWarn.notFound t0, AWarn.missingPdb],
          errs := [], pdbWrites := tags.length + 1 } := by
  rw [getForcefieldTypes, List.map_cons, List.foldl_cons]
  rw [show processRow scheme (some ffT) (initAmbState sys0) tag0 t0 = _ from
    processRow_first scheme t0 sys0 ffT tag0 h1 h2 h3]
  rw [fold_saturated scheme t0 ffT tags _ h1 h2 h3 (by simp) rfl]
  simp [Nat.add_comm]

/-- C8 counterexample: two particles sharing one missing type produce
two writes of the diagnostic snapshot, not exactly one. -/
theorem amber_c8_counterexample :
    (getForcefieldTypes "gaff" (some ["c3"]) [] [(1, "xx"), (2, "xx")]).pdbWrites = 2
    ∧ (getForcefieldTypes "gaff" (some ["c3"]) [] [(1, "xx"), (2, "xx")]).pdbWrites ≠ 1 := by
  decide

/-- C8 witness at a concrete three-particle run. -/
theorem amber_c8_snapshot_per_particle_witness :
    getForcefieldTypes "gaff" (some ["hc"]) [] [(5, "zz"), (6, "zz"), (7, "zz")]
      = { sysTypes := [], assigned := [], missingTypes := ["zz"], c5c6Flag := false,
          warningPdbFlag := true, warns := [AWarn.notFound "zz", AWarn.missingPdb],
          errs := [], pdbWrites := 3 } :=
  amber_c8_snapshot_per_particle "gaff" "zz" [] ["hc"] 5 [6, 7]
    (by decide) (by decide) (by decide)

/-- A particle of the system passed to `calc_charges`: `charge` is the
one field the routine mutates (the parsed float is kept as the raw field
text, charge identity being all the claims need); `rest` stands for
every other per-particle field (position, type, ...), never touched. -/
structure Pcl (α : Type) where
  rest : α
  charge : List Char
deriving DecidableEq

/-- Models `s.particles[tag].charge = charge`: set the charge of the particle
carrying the given tag, leaving every other field and particle alone. -/
def setCharge {α : Type} (ps : List (Nat × Pcl α)) (tag : Nat) (c : List Char) :
    List (Nat × Pcl α) :=
  ps.map (fun tp => if tp.1 = tag then (tp.1, { tp.2 with charge := c }) else tp)

/-- Whether a whitespace-split output row is an ATOM row
(`line.split () [0] == 'ATOM'`; a row with no fields is where the
source would raise, reading no further either way). -/
def isAtomRow (row : List (List Char)) : Bool := row.head? == some (chars "ATOM")

/-- The `(tag, charge)` pair of an ATOM row: `int` of the second field
and the second-to-last field. -/
def rowTagCharge (row : List (List Char)) : Nat × List Char :=
  (decAux 0 ((row.get? 1).getD []), (row.reverse.get? 1).getD [])

/-- The consecutive ATOM block: rows are consumed while the first field
is `ATOM`; the first non-ATOM row stops the loop. -/
def acBlock : List (List (List Char)) → List (Nat × List Char)
  | [] => []
  | row :: rest => if isAtomRow row then rowTagCharge row :: acBlock rest else []

/-- Models `calc_charges` after the external tool ran: the first two lines of
the output file are skipped, the ATOM block starting at the third line
is parsed, and each listed tag's charge is assigned in row order. -/
def calcCharges {α : Type} (ps : List (Nat × Pcl α)) (file : List (List (List Char))) :
    List (Nat × Pcl α) :=
  (acBlock (file.drop 2)).foldl (fun ps tc => setCharge ps tc.1 tc.2) ps

/-- The charge of the particle carrying a tag (first match). -/
def chargeOf {α : Type} : List (Nat × Pcl α) → Nat → Option (List Char)
  | [], _ => none
  | tp :: tl, t => if tp.1 = t then some tp.2.charge else chargeOf tl t

theorem chargeOf_cons {α : Type} (tp : Nat × Pcl α) (tl : List (Nat × Pcl α)) (t : Nat) :
    chargeOf (tp :: tl) t = if tp.1 = t then some tp.2.charge else chargeOf tl t := rfl

theorem setCharge_cons {α : Type} (tp : Nat × Pcl α) (tl : List (Nat × Pcl α))
    (tag : Nat) (c : List Char) :
    setCharge (tp :: tl) tag c
      = (if tp.1 = tag then (tp.1, { tp.2 with charge := c }) else tp) :: setCharge tl tag c := by
  simp [setCharge]

theorem acBlock_takeWhile (l : List (List (List Char))) :
    acBlock l = (l.takeWhile isAtomRow).map rowTagCharge := by
  induction l with
  | nil => rfl
  | cons row rest ih =>
    rw [acBlock]
    by_cases h : isAtomRow row
    · rw [if_pos h, List.takeWhile_cons_of_pos h, List.map_cons, ih]
    · rw [if_neg h, List.takeWhile_cons_of_neg (by simpa using h)]
      rfl

theorem setCharge_frame {α : Type} (ps : List (Nat × Pcl α)) (tag : Nat) (c : List Char) :
    (setCharge ps tag c).map (fun tp => (tp.1, tp.2.rest))
      = ps.map (fun tp => (tp.1, tp.2.rest)) := by
  induction ps with
  | nil => rfl
  | cons tp tl ih =>
    simp only [setCharge, List.map_cons] at *
    by_cases h : tp.1 = tag
    · rw [if_pos h]; simp [ih]
    · rw [if_neg h]; simp [ih]

theorem setCharge_other {α : Type} (ps : List (Nat × Pcl α)) (tag t : Nat) (c : List Char)
    (h : t ≠ tag) : chargeOf (setCharge ps tag c) t = chargeOf ps t := by
  induction ps with
  | nil => rfl
  | cons tp tl ih =>
    rw [setCharge_cons]
    by_cases h1 : tp.1 = tag
    · rw [if_pos h1, chargeOf_cons, chargeOf_cons]
      have h2 : ¬ tp.1 = t := by omega
      rw [if_neg h2, if_neg h2]
      exact ih
    · rw [if_neg h1, chargeOf_cons, chargeOf_cons]
      by_cases h2 : tp.1 = t
      · rw [if_pos h2, if_pos h2]
      · rw [if_neg h2, if_neg h2]
        exact ih

theorem setCharge_hit {α : Type} (ps : List (Nat × Pcl α)) (t : Nat) (c : List Char)
    (h : t ∈ ps.map Prod.fst) : chargeOf (setCharge ps t c) t = some c := by
  induction ps with
  | nil => simp at h
  | cons tp tl ih =>
    rw [setCharge_cons]
    by_cases h1 : tp.1 = t
    · rw [if_pos h1, chargeOf_cons]
      simp [h1]
    · rw [if_neg h1, chargeOf_cons, if_neg h1]
      rcases List.mem_cons.mp h with h3 | h3
      · exact absurd h3.symm h1
      · exact ih h3

theorem calcFold_frame {α : Type} (block : List (Nat × List Char)) :
    ∀ ps : List (Nat × Pcl α),
    (block.foldl (fun ps tc => setCharge ps tc.1 tc.2) ps).map (fun tp => (tp.1, tp.2.rest))
      = ps.map (fun tp => (tp.1, tp.2.rest)) := by
  induction block with
  | nil => intro ps; rfl
  | cons tc tl ih =>
    intro ps
    rw [List.foldl_cons, ih, setCharge_frame]

theorem calcFold_tags {α : Type} (block : List (Nat × List Char))
    (ps : List (Nat × Pcl α)) :
    (block.foldl (fun ps tc => setCharge ps tc.1 tc.2) ps).map Prod.fst
      = ps.map Prod.fst := by
  have h := calcFold_frame block ps
  have h1 := congrArg (List.map Prod.fst) h
  simpa [List.map_map, Function.comp] using h1

theorem calcFold_other {α : Type} (block : List (Nat × List Char)) :
    ∀ (ps : List (Nat × Pcl α)) (t : Nat), t ∉ block.map Prod.fst →
    chargeOf (block.foldl (fun ps tc => setCharge ps tc.1 tc.2) ps) t = chargeOf ps t := by
  induction block with
  | nil => intro ps t _; rfl
  | cons tc tl ih =>
    intro ps t h
    simp only [List.map_cons, List.mem_cons] at h
    push_neg at h
    rw [List.foldl_cons, ih _ t h.2, setCharge_other _ _ _ _ h.1]

theorem calcFold_hit {α : Type} (l1 : List (Nat × List Char)) :
    ∀ (l2 : List (Nat × List Char)) (t : Nat) (c : List Char) (ps : List (Nat × Pcl α)),
    t ∉ l2.map Prod.fst → t ∈ ps.map Prod.fst →
    chargeOf ((l1 ++ (t, c) :: l2).foldl (fun ps tc => setCharge ps tc.1 tc.2) ps) t
      = some c := by
  induction l1 with
  | nil =>
    intro l2 t c ps h2 hps
    rw [List.nil_append, List.foldl_cons, calcFold_other l2 _ t h2, setCharge_hit _ _ _ hps]
  | cons tc tl ih =>
    intro l2 t c ps h2 hps
    rw [List.cons_append, List.foldl_cons]
    refine ih l2 t c _ h2 ?_
    rw [show setCharge ps tc.1 tc.2 =
      (([tc] : List (Nat × List Char)).foldl (fun ps tc => setCharge ps tc.1 tc.2) ps)
      from rfl, calcFold_tags]
    exact hps

/-- C10.  `calc_charges` assigns charges exactly to the tags listed in
the consecutive ATOM block beginning at the third output line: the block
ends at the first non-ATOM row; every other field of every particle, and
the charge of every unlisted particle, is left unchanged; a listed
particle's charge becomes the second-to-last field of its row. -/
theorem amber_c10_charge_frame {α : Type} (ps : List (Nat × Pcl α))
    (file : List (List (List Char)))
    (_hrows : ∀ row ∈ file, row ≠ ([] : List (List Char))) :
    acBlock (file.drop 2) = ((file.drop 2).takeWhile isAtomRow).map rowTagCharge
    ∧ (calcCharges ps file).map (fun tp => (tp.1, tp.2.rest))
        = ps.map (fun tp => (tp.1, tp.2.rest))
    ∧ (∀ t, t ∉ (acBlock (file.drop 2)).map Prod.fst →
        chargeOf (calcCharges ps file) t = chargeOf ps t)
    ∧ (∀ t c l1 l2, acBlock (file.drop 2) = l1 ++ (t, c) :: l2 →
        t ∉ l2.map Prod.fst → t ∈ ps.map Prod.fst →
        chargeOf (calcCharges ps file) t = some c) := by
  refine ⟨acBlock_takeWhile _, calcFold_frame _ _, ?_, ?_⟩
  · intro t ht
    exact calcFold_other _ _ t ht
  · intro t c l1 l2 heq h2 hps
    rw [calcCharges, heq]
    exact calcFold_hit l1 l2 t c ps h2 hps

/-- The antechamber charge-output file of the C10 witness. -/
def c10File : List (List (List Char)) :=
  [[chars "CHARGE"], [chars "header"],
   [chars "ATOM", chars "1", chars "N1", chars "x", chars "-0.3", chars "N"],
   [chars "ATOM", chars "2", chars "C1", chars "x", chars "0.1", chars "C"],
   [chars "BOND", chars "1"],
   [chars "ATOM", chars "3", chars "O1", chars "x", chars "-0.5", chars "O"]]

/-- The particle list of the C10 witness. -/
def c10Ps : List (Nat × Pcl Nat) :=
  [(1, ⟨10, chars "0"⟩), (2, ⟨20, chars "0"⟩), (3, ⟨30, chars "0"⟩)]

/-- C10 witness: tag 1, listed in the block, gets its row's second-to-last
field; tag 3, listed only after the first non-ATOM row, stays unchanged. -/
theorem amber_c10_charge_frame_witness :
    chargeOf (calcCharges c10Ps c10File) 1 = some (chars "-0.3")
    ∧ chargeOf (calcCharges c10Ps c10File) 3 = chargeOf c10Ps 3 :=
  ⟨(amber_c10_charge_frame c10Ps c10File (by decide)).2.2.2 1 (chars "-0.3") []
      [(2, chars "0.1")] (by decide) (by decide) (by decide),
   (amber_c10_charge_frame c10Ps c10File (by decide)).2.2.1 3 (by decide)⟩
